import Mathlib

/-!
Shallow embedding of the stgit `goto` and `new` commands: the patch name
resolution of goto.rs, the stack transaction operations those commands
invoke, and the clap argument constraints declared in new.rs.  Operations of
the transaction engine that live outside the two given source files are
modelled from the specification, as marked on each definition.
-/

set_option autoImplicit false

namespace StGitSpec

/-- Patch names are validated strings (alphanumeric characters, dashes and
underscores, non-empty); equality is exact string equality. -/
abbrev PatchName := String

/-- ASCII lowercasing of one character, as in char to_ascii_lowercase. -/
def asciiLowerChar (c : Char) : Char :=
  if 'A' ≤ c ∧ c ≤ 'Z' then Char.ofNat (c.toNat + 32) else c

/-- ASCII lowercasing of a string, as in str to_ascii_lowercase. -/
def asciiLower (s : String) : String :=
  ⟨s.data.map asciiLowerChar⟩

/-- Byte prefix test on strings, as in str starts_with; stated on the
character lists, which agrees with the byte view on the ASCII inputs the
commit id scan feeds it. -/
def strStartsWith (s pfx : String) : Bool :=
  pfx.data.isPrefixOf s.data

/-- Hexadecimal digit test matching the libgit2 from_hex table, which
accepts digits and both letter cases. -/
def isHexChar (c : Char) : Bool :=
  decide (('0' ≤ c ∧ c ≤ '9') ∨ ('a' ≤ c ∧ c ≤ 'f') ∨ ('A' ≤ c ∧ c ≤ 'F'))

/-- Models the external collaborator call git2 Oid from_str: the string
parses as an object id prefix iff it has at most 40 characters and every
character is a hexadecimal digit. -/
def oidParseOk (s : String) : Bool :=
  decide (s.length ≤ 40) && s.data.all isHexChar

/-- The stack snapshot: ordered applied and unapplied sequences, the hidden
set, the descriptor commit id of every patch, and the branch base commit.
The domain of the full patch map (state.patches) is the known name list
applied ++ unapplied ++ hidden, since by the section 3 invariant the three
collections partition the known patch names. -/
structure StackState where
  applied : List PatchName
  unapplied : List PatchName
  hidden : List PatchName
  commit : PatchName → String
  base : String

/-- All known patch names, in the order all_patches iterates them:
applied, then unapplied, then hidden. -/
def knownPatches (s : StackState) : List PatchName :=
  s.applied ++ s.unapplied ++ s.hidden

/-- The errors the goto name resolution can produce. -/
inductive ResolveError where
  | hiddenPatch
  | ambiguousName (candidates : List PatchName)
  | ambiguousCommitId (candidates : List PatchName)
  | notFound
deriving DecidableEq

/-- The known names whose similarity score against the input is strictly
above 0.75, as filtered in goto.rs lines 57 to 60.  The metric itself
(jaro_winkler from the external strsim crate, a floating point function) is
passed as a parameter. -/
def similarNames (sim : String → String → ℚ) (s : StackState) (input : PatchName) :
    List PatchName :=
  (knownPatches s).filter (fun pn => decide (mkRat 3 4 < sim pn input))

/-- The patch names whose descriptor commit id starts with the ASCII
lowercased input, as scanned in goto.rs lines 71 to 85. -/
def oidMatches (s : StackState) (input : PatchName) : List PatchName :=
  (knownPatches s).filter (fun pn => strStartsWith (s.commit pn) (asciiLower input))

/-- The patch name resolution of goto.rs lines 50 to 110: exact match with
the hidden check, then the similarity candidates, then the commit id prefix
scan, and otherwise not found. -/
def resolvePatchName (sim : String → String → ℚ) (s : StackState) (input : PatchName) :
    Except ResolveError PatchName :=
  if input ∈ knownPatches s then
    if input ∈ s.hidden then .error .hiddenPatch else .ok input
  else if similarNames sim s input ≠ [] then
    .error (.ambiguousName (similarNames sim s input))
  else if 4 ≤ input.length ∧ oidParseOk input = true then
    match oidMatches s input with
    | [] => .error .notFound
    | [pn] => .ok pn
    | pns => .error (.ambiguousCommitId pns)
  else
    .error .notFound

/-- The conflict policy of a stack transaction. -/
inductive ConflictMode where
  | Disallow
  | Allow
deriving DecidableEq

/-- Index of the first element satisfying the predicate, as the Rust
iterator position method computes it. -/
def position {α : Type*} (p : α → Bool) : List α → Option Nat
  | [] => none
  | a :: l => if p a then some 0 else (position p l).map (· + 1)

/-- Modelled from the spec: the repository head commit is the descriptor
commit of the last applied patch, or the branch base commit when the
applied sequence is empty (section 3 invariant). -/
def headCommit (s : StackState) : String :=
  match s.applied.getLast? with
  | some p => s.commit p
  | none => s.base

/-- Modelled from the spec: the commit id created by create_commit for the
result of merging a patch on top of a parent commit. -/
def mkCommit (parent patchCommit : String) : String :=
  parent ++ ":" ++ patchCommit

/-- Modelled from the spec: push_patch moves the patch from unapplied to
the top of applied and updates its descriptor to a commit created on top of
the current head. -/
def pushPatch (p : PatchName) (s : StackState) : StackState :=
  { s with
    applied := s.applied ++ [p],
    unapplied := s.unapplied.erase p,
    commit := fun q => if q = p then mkCommit (headCommit s) (s.commit p) else s.commit q }

/-- Modelled from the spec: pop_patches identifies the suffix of applied
starting at the first element satisfying the predicate, moves it to the
front of unapplied keeping its original relative order, and pops its
members in reverse (top-down) order, returned as the second component. -/
def popPatches (pred : PatchName → Bool) (s : StackState) : StackState × List PatchName :=
  match position pred s.applied with
  | none => (s, [])
  | some i =>
    ({ s with
        applied := s.applied.take i,
        unapplied := s.applied.drop i ++ s.unapplied },
     (s.applied.drop i).reverse)

/-- The errors a goto transaction body can produce; panicTargetMissing
stands for the failing expect on the unapplied position lookup. -/
inductive GotoError where
  | mergeConflict (pushedBefore : Nat)
  | panicTargetMissing
deriving DecidableEq

/-- Modelled from the spec: apply the push intents in order.  A conflicting
push under Disallow aborts with the count of patches already pushed; under
Allow the conflicted patch is still moved to applied and the transaction
stops there for manual resolution. -/
def pushAll (mode : ConflictMode) (conflicts : PatchName → Bool) :
    List PatchName → StackState → Nat → Except GotoError StackState
  | [], s, _ => .ok s
  | p :: rest, s, n =>
    if conflicts p then
      match mode with
      | .Disallow => .error (.mergeConflict n)
      | .Allow => .ok (pushPatch p s)
    else
      pushAll mode conflicts rest (pushPatch p s) (n + 1)

/-- The transaction closure of goto.rs lines 122 to 160, taken without the
merged option: pop everything strictly above an applied target, or push the
unapplied prefix up to and including an unapplied target.  The expect on
the unapplied position lookup is modelled by the panicTargetMissing error.
The second component of a successful result is the list of popped patches
in the order they were popped. -/
def gotoTransactionBody (mode : ConflictMode) (conflicts : PatchName → Bool)
    (target : PatchName) (s : StackState) :
    Except GotoError (StackState × List PatchName) :=
  match position (fun pn => pn == target) s.applied with
  | some pos =>
    .ok (popPatches (fun pn => decide (pn ∈ s.applied.drop (pos + 1))) s)
  | none =>
    match position (fun pn => pn == target) s.unapplied with
    | none => .error .panicTargetMissing
    | some pos =>
      (pushAll mode conflicts (s.unapplied.take (pos + 1)) s 0).map (fun t => (t, []))

/-- Modelled from the spec: execute applies the recorded intents and, on
success, persists the resulting stack state as a single atomic write; on
any failure the persisted metadata is left untouched and is returned here
unchanged together with the error. -/
def executeGoto (mode : ConflictMode) (conflicts : PatchName → Bool)
    (target : PatchName) (s : StackState) : StackState × Option GotoError :=
  match gotoTransactionBody mode conflicts target s with
  | .ok (t, _) => (t, none)
  | .error e => (s, some e)

/-- A flag assignment for the new command. -/
structure NewArgs where
  pathspecs : Bool
  refresh : Bool
  index : Bool
  force : Bool
  submodules : Bool
  noSubmodules : Bool
  saveTemplate : Bool
deriving DecidableEq

/-- The clap constraints declared in new.rs make, lines 41 to 119: every
conflicts_with edge, every requires edge, and the submodule ArgGroup, as a
validity predicate on a flag assignment. -/
def validNewArgs (a : NewArgs) : Bool :=
  !(a.pathspecs && a.saveTemplate) &&
  !(a.refresh && a.saveTemplate) &&
  (!a.index || a.refresh) &&
  !(a.index && a.pathspecs) &&
  !(a.index && a.submodules) &&
  !(a.index && a.force) &&
  (!a.force || a.refresh) &&
  (!a.submodules || a.refresh) &&
  (!a.noSubmodules || a.refresh) &&
  !(a.submodules && a.noSubmodules)

/-- A commit reference with its id and tree id, as the branch head is seen
by new.rs. -/
structure CommitInfo where
  cid : String
  tree : String

/-- The tree id and parent id of a created patch commit. -/
structure NewCommitSpec where
  tree : String
  parent : String

/-- The tree and parent of the patch commit created by new.rs run, lines
145 to 153: refreshing uses the assembled refresh tree, otherwise the tree
of the branch head; the parent is always the branch head commit.  The
commit creation itself (EditBuilder with override_tree_id and
override_parent_id) is modelled from the spec as committing exactly the
overridden tree and parent. -/
def newPatchCommit (refresh pathspecs : Bool) (branchHead : CommitInfo)
    (refreshTree : String) : NewCommitSpec :=
  { tree := if refresh || pathspecs then refreshTree else branchHead.tree,
    parent := branchHead.cid }

/-- Modelled from the spec: new_applied records the freshly created patch
at the top of the applied sequence with its new commit. -/
def newApplied (name : PatchName) (c : String) (s : StackState) : StackState :=
  { s with
    applied := s.applied ++ [name],
    commit := fun q => if q = name then c else s.commit q }

/-! Helper lemmas about position, take, drop and the push fold. -/

theorem aux_position_none {α : Type*} (p : α → Bool) :
    ∀ l : List α, (∀ x ∈ l, p x = false) → position p l = none
  | [], _ => rfl
  | a :: l, h => by
    have ha : p a = false := h a (by simp)
    have hl : position p l = none := aux_position_none p l (fun x hx => h x (by simp [hx]))
    simp [position, ha, hl]

theorem aux_position_append {α : Type*} (p : α → Bool) :
    ∀ (pre : List α) (a : α) (post : List α), (∀ x ∈ pre, p x = false) → p a = true →
      position p (pre ++ a :: post) = some pre.length
  | [], a, post, _, ha => by simp [position, ha]
  | x :: pre, a, post, h, ha => by
    have hx : p x = false := h x (by simp)
    have htail := aux_position_append p pre a post (fun y hy => h y (by simp [hy])) ha
    simp [position, hx, htail]

theorem aux_take_append {α : Type*} :
    ∀ (pre : List α) (a : α) (post : List α),
      (pre ++ a :: post).take (pre.length + 1) = pre ++ [a]
  | [], _, _ => by simp
  | x :: pre, a, post => by simp [aux_take_append pre a post]

theorem aux_drop_append {α : Type*} :
    ∀ (pre : List α) (a : α) (post : List α),
      (pre ++ a :: post).drop (pre.length + 1) = post
  | [], _, _ => by simp
  | x :: pre, a, post => by simp [aux_drop_append pre a post]

theorem aux_getLast?_mem {α : Type*} :
    ∀ (l : List α) (a : α), l.getLast? = some a → a ∈ l
  | [], a, h => by simp [List.getLast?] at h
  | [x], a, h => by
    simp [List.getLast?] at h
    simp [h]
  | x :: y :: l, a, h => by
    rw [List.getLast?_cons_cons] at h
    exact List.mem_cons_of_mem x (aux_getLast?_mem (y :: l) a h)

theorem aux_headCommit_congr (s t : StackState) (happ : t.applied = s.applied)
    (hbase : t.base = s.base) (hc : ∀ q ∈ s.applied, t.commit q = s.commit q) :
    headCommit t = headCommit s := by
  unfold headCommit
  rw [happ, hbase]
  cases h : s.applied.getLast? with
  | none => rfl
  | some q => exact hc q (aux_getLast?_mem _ _ h)

theorem aux_pushAll_clean (mode : ConflictMode) (conflicts : PatchName → Bool) :
    ∀ (ps : List PatchName) (s : StackState) (n : Nat),
      (∀ p ∈ ps, conflicts p = false) →
      pushAll mode conflicts ps s n = .ok (ps.foldl (fun t q => pushPatch q t) s)
  | [], _, _, _ => rfl
  | p :: ps, s, n, h => by
    have hp : conflicts p = false := h p (by simp)
    have htail := aux_pushAll_clean mode conflicts ps (pushPatch p s) (n + 1)
      (fun q hq => h q (by simp [hq]))
    simp [pushAll, hp, htail]

theorem aux_foldl_push_applied :
    ∀ (ps : List PatchName) (s : StackState),
      (ps.foldl (fun t q => pushPatch q t) s).applied = s.applied ++ ps
  | [], s => by simp
  | p :: ps, s => by
    rw [List.foldl_cons, aux_foldl_push_applied ps (pushPatch p s)]
    simp [pushPatch]

theorem aux_foldl_push_unapplied :
    ∀ (ps rest : List PatchName) (s : StackState), s.unapplied = ps ++ rest →
      (ps.foldl (fun t q => pushPatch q t) s).unapplied = rest
  | [], rest, s, h => by simpa using h
  | p :: ps, rest, s, h => by
    apply aux_foldl_push_unapplied ps rest (pushPatch p s)
    simp [pushPatch, h]

theorem aux_pushAll_conflict (conflicts : PatchName → Bool) :
    ∀ ps : List PatchName, (∃ p ∈ ps, conflicts p = true) →
      ∀ (s : StackState) (n : Nat),
        ∃ k, pushAll .Disallow conflicts ps s n = .error (.mergeConflict k)
  | [], h, _, _ => absurd h (by simp)
  | p :: ps, h, s, n => by
    by_cases hp : conflicts p = true
    · exact ⟨n, by simp [pushAll, hp]⟩
    · have hrest : ∃ q ∈ ps, conflicts q = true := by
        rcases h with ⟨q, hq, hcq⟩
        rcases List.mem_cons.mp hq with rfl | hq2
        · exact absurd hcq hp
        · exact ⟨q, hq2, hcq⟩
      rcases aux_pushAll_conflict conflicts ps hrest (pushPatch p s) (n + 1) with ⟨k, hk⟩
      have hp' : conflicts p = false := by simpa using hp
      exact ⟨k, by simp [pushAll, hp', hk]⟩

/-! Concrete states used by witnesses and counterexamples. -/

/-- A similarity metric that scores every pair 1. -/
def oneSim : String → String → ℚ := fun _ _ => mkRat 1 1

/-- A similarity metric that scores every pair 0. -/
def zeroSim : String → String → ℚ := fun _ _ => mkRat 0 1

/-- A stack with two similarly named applied patches. -/
def featureStack : StackState :=
  ⟨["feature-a", "feature-b"], [], [], fun _ => "cccc0000", "bbbb0000"⟩

/-- A stack with one applied, one unapplied and one hidden patch, with
distinct commit id prefixes. -/
def oidStack : StackState :=
  ⟨["alpha"], ["beta"], ["hid"],
   fun pn => if pn = "alpha" then "abcd1234" else
     if pn = "beta" then "ffff0000" else "eeee0000", "bbbb0000"⟩

/-! The claims. -/

/-- Claim C2: when the input has no exact match among the known names and
the set of known names scoring strictly above 0.75 against the input is
non-empty, resolution fails with the ambiguous name error carrying that
whole candidate set; it never auto-picks a best score and never reaches the
commit id prefix step, whatever prefix matches exist. -/
theorem goto_similarity_ambiguous (sim : String → String → ℚ) (s : StackState)
    (input : PatchName) (hne : input ∉ knownPatches s)
    (hsim : similarNames sim s input ≠ []) :
    resolvePatchName sim s input = .error (.ambiguousName (similarNames sim s input)) := by
  simp [resolvePatchName, hne, hsim]

theorem goto_similarity_ambiguous_witness :
    ("feature" : PatchName) ∉ knownPatches featureStack ∧
    similarNames oneSim featureStack "feature" ≠ [] ∧
    resolvePatchName oneSim featureStack "feature" =
      .error (.ambiguousName (similarNames oneSim featureStack "feature")) :=
  ⟨by decide, by decide,
   goto_similarity_ambiguous oneSim featureStack "feature" (by decide) (by decide)⟩

/-- Claim C6: an exact match that is in the hidden set fails with the
hidden patch error; an exact match outside the hidden set resolves to the
input name itself, never a different present name. -/
theorem goto_exact_match (sim : String → String → ℚ) (s : StackState)
    (input : PatchName) (hk : input ∈ knownPatches s) :
    resolvePatchName sim s input =
      (if input ∈ s.hidden then .error .hiddenPatch else .ok input) := by
  simp [resolvePatchName, hk]

theorem goto_exact_match_witness :
    ("hid" : PatchName) ∈ knownPatches oidStack ∧
    resolvePatchName zeroSim oidStack "hid" =
      (if ("hid" : PatchName) ∈ oidStack.hidden then .error .hiddenPatch else .ok "hid") :=
  ⟨by decide, goto_exact_match zeroSim oidStack "hid" (by decide)⟩

/-- Claim C3: with no exact match and no similarity candidates, an input
shorter than 4 characters never reaches the prefix scan and fails with not
found; an input of length at least 4 that parses as a hexadecimal object id
prefix is matched case-insensitively against all descriptor commit ids:
zero matches fail with not found, a unique match resolves to that patch,
and several matches fail with the ambiguous commit id error listing all of
them. -/
theorem goto_oid_prefix_resolution (sim : String → String → ℚ) (s : StackState)
    (input : PatchName) (hne : input ∉ knownPatches s)
    (hsim : similarNames sim s input = []) :
    (input.length < 4 → resolvePatchName sim s input = .error .notFound) ∧
    (4 ≤ input.length → oidParseOk input = true →
      (oidMatches s input = [] → resolvePatchName sim s input = .error .notFound) ∧
      (∀ pn, oidMatches s input = [pn] → resolvePatchName sim s input = .ok pn) ∧
      (2 ≤ (oidMatches s input).length →
        resolvePatchName sim s input =
          .error (.ambiguousCommitId (oidMatches s input)))) := by
  refine ⟨?_, ?_⟩
  · intro hlen
    have hge : ¬ 4 ≤ input.length := by omega
    have hc : ¬ (4 ≤ input.length ∧ oidParseOk input = true) := fun h => hge h.1
    simp [resolvePatchName, hne, hsim, hc]
  · intro h4 hox
    have hc : 4 ≤ input.length ∧ oidParseOk input = true := ⟨h4, hox⟩
    refine ⟨?_, ?_, ?_⟩
    · intro hm
      simp [resolvePatchName, hne, hsim, hc, hm]
    · intro pn hm
      simp [resolvePatchName, hne, hsim, hc, hm]
    · intro hm
      rcases hml : oidMatches s input with _ | ⟨a, _ | ⟨b, t⟩⟩
      · rw [hml] at hm
        simp at hm
      · rw [hml] at hm
        simp at hm
      · simp [resolvePatchName, hne, hsim, hc, hml]

theorem goto_oid_prefix_resolution_witness :
    ("abcd" : PatchName) ∉ knownPatches oidStack ∧
    similarNames zeroSim oidStack "abcd" = [] ∧
    ((("abcd" : PatchName).length < 4 →
        resolvePatchName zeroSim oidStack "abcd" = .error .notFound) ∧
      (4 ≤ ("abcd" : PatchName).length → oidParseOk "abcd" = true →
        (oidMatches oidStack "abcd" = [] →
          resolvePatchName zeroSim oidStack "abcd" = .error .notFound) ∧
        (∀ pn, oidMatches oidStack "abcd" = [pn] →
          resolvePatchName zeroSim oidStack "abcd" = .ok pn) ∧
        (2 ≤ (oidMatches oidStack "abcd").length →
          resolvePatchName zeroSim oidStack "abcd" =
            .error (.ambiguousCommitId (oidMatches oidStack "abcd"))))) :=
  ⟨by decide, by decide,
   goto_oid_prefix_resolution zeroSim oidStack "abcd" (by decide) (by decide)⟩

/-- Claim C9: the hidden patch rejection applies only to exact name
matches.  On this stack the input eeee matches no name exactly, has no
similarity candidates, and is a 4 character hex prefix of the hidden patch
commit id, so resolution succeeds with the hidden patch name; the
transaction body then fails the expect on the unapplied position lookup,
since a hidden patch is in neither applied nor unapplied. -/
theorem goto_hidden_prefix_panic :
    resolvePatchName zeroSim oidStack "eeee" = .ok "hid" ∧
    ("hid" : PatchName) ∈ oidStack.hidden ∧
    gotoTransactionBody .Disallow (fun _ => false) "hid" oidStack =
      .error .panicTargetMissing :=
  ⟨rfl, by decide, rfl⟩

/-- Claim C4: goto on an applied target pops exactly the patches strictly
above it, in reverse (top-down) order as reported by the popped list,
leaves applied equal to the original prefix ending at the target, and
places the popped patches at the front of unapplied in their original
relative order. -/
theorem goto_applied_target (mode : ConflictMode) (conflicts : PatchName → Bool)
    (s : StackState) (pre post : List PatchName) (target : PatchName)
    (happ : s.applied = pre ++ target :: post) (hnd : s.applied.Nodup) :
    gotoTransactionBody mode conflicts target s =
      .ok ({ s with applied := pre ++ [target], unapplied := post ++ s.unapplied },
           post.reverse) := by
  rw [happ] at hnd
  have hdisj : pre.Disjoint (target :: post) := List.disjoint_of_nodup_append hnd
  have htpost : target ∉ post := (List.nodup_cons.mp hnd.of_append_right).1
  have hpre_t : ∀ x ∈ pre, (x == target) = false := by
    intro x hx
    have hxt : x ≠ target := fun h => hdisj hx (h ▸ List.mem_cons_self target post)
    simpa using hxt
  have h1 : position (fun pn => pn == target) s.applied = some pre.length := by
    rw [happ]
    exact aux_position_append _ pre target post hpre_t (by simp)
  have hdrop : s.applied.drop (pre.length + 1) = post := by
    rw [happ]
    exact aux_drop_append pre target post
  have htake : s.applied.take (pre.length + 1) = pre ++ [target] := by
    rw [happ]
    exact aux_take_append pre target post
  have hbody : gotoTransactionBody mode conflicts target s =
      .ok (popPatches (fun pn => decide (pn ∈ post)) s) := by
    simp only [gotoTransactionBody, h1, hdrop]
  rw [hbody]
  cases post with
  | nil =>
    have hpred : position (fun pn => decide (pn ∈ ([] : List PatchName))) s.applied = none :=
      aux_position_none _ _ (fun x _ => by simp)
    have happ1 : s.applied = pre ++ [target] := by simpa using happ
    have hpop : popPatches (fun pn => decide (pn ∈ ([] : List PatchName))) s = (s, []) := by
      unfold popPatches
      rw [hpred]
    rw [hpop, ← happ1]
    simp only [List.nil_append, List.reverse_nil]
  | cons q qs =>
    have happ2 : s.applied = (pre ++ [target]) ++ q :: qs := by
      rw [happ]
      simp
    have hpred_pre : ∀ x ∈ pre ++ [target], (fun pn => decide (pn ∈ q :: qs)) x = false := by
      intro x hx
      rcases List.mem_append.mp hx with hx1 | hx2
      · have hx3 : x ∉ q :: qs := fun h => hdisj hx1 (List.mem_cons_of_mem target h)
        simpa using hx3
      · have hxt : x = target := List.mem_singleton.mp hx2
        subst hxt
        simpa using htpost
    have hpos2 : position (fun pn => decide (pn ∈ q :: qs)) s.applied
        = some (pre.length + 1) := by
      have hraw := aux_position_append (fun pn => decide (pn ∈ q :: qs))
        (pre ++ [target]) q qs hpred_pre (by simp)
      rw [happ2]
      simpa using hraw
    have hpop : popPatches (fun pn => decide (pn ∈ q :: qs)) s =
        ({ s with applied := pre ++ [target], unapplied := (q :: qs) ++ s.unapplied },
         (q :: qs).reverse) := by
      unfold popPatches
      simp only [hpos2]
      rw [htake, hdrop]
    rw [hpop]

theorem goto_applied_target_witness :
    featureStack.applied = [] ++ "feature-a" :: ["feature-b"] ∧
    featureStack.applied.Nodup ∧
    gotoTransactionBody .Disallow (fun _ => false) "feature-a" featureStack =
      .ok ({ featureStack with
              applied := [] ++ ["feature-a"],
              unapplied := ["feature-b"] ++ featureStack.unapplied },
           ["feature-b"].reverse) :=
  ⟨rfl, by decide,
   goto_applied_target .Disallow (fun _ => false) featureStack [] ["feature-b"]
     "feature-a" rfl (by decide)⟩

/-- A stack with one applied and two unapplied patches. -/
def pushStack : StackState :=
  ⟨["p1"], ["p2", "p3"], [], fun _ => "cccc0000", "bbbb0000"⟩

/-- Claim C5: goto on an unapplied target at position pos pushes the first
pos + 1 unapplied patches in front to back order, target last, extending
applied by exactly those patches in that order and leaving unapplied as the
remaining suffix. -/
theorem goto_unapplied_target (mode : ConflictMode) (conflicts : PatchName → Bool)
    (s : StackState) (front rest : List PatchName) (target : PatchName)
    (hna : target ∉ s.applied) (hu : s.unapplied = front ++ target :: rest)
    (htf : target ∉ front) (hclean : ∀ p ∈ front ++ [target], conflicts p = false) :
    ∃ t, gotoTransactionBody mode conflicts target s = .ok (t, []) ∧
      t.applied = s.applied ++ (front ++ [target]) ∧ t.unapplied = rest := by
  have h0 : position (fun pn => pn == target) s.applied = none := by
    apply aux_position_none
    intro x hx
    have hxt : x ≠ target := fun h => hna (h ▸ hx)
    simpa using hxt
  have h1 : position (fun pn => pn == target) s.unapplied = some front.length := by
    rw [hu]
    apply aux_position_append
    · intro x hx
      have hxt : x ≠ target := fun h => htf (h ▸ hx)
      simpa using hxt
    · simp
  have htake : s.unapplied.take (front.length + 1) = front ++ [target] := by
    rw [hu]
    exact aux_take_append front target rest
  have hclean2 := aux_pushAll_clean mode conflicts (front ++ [target]) s 0 hclean
  refine ⟨(front ++ [target]).foldl (fun t q => pushPatch q t) s, ?_, ?_, ?_⟩
  · simp only [gotoTransactionBody, h0, h1, htake, hclean2, Except.map]
  · exact aux_foldl_push_applied (front ++ [target]) s
  · apply aux_foldl_push_unapplied (front ++ [target]) rest s
    rw [hu, List.append_assoc]
    rfl

theorem goto_unapplied_target_witness :
    ("p3" : PatchName) ∉ pushStack.applied ∧
    pushStack.unapplied = ["p2"] ++ "p3" :: [] ∧
    ("p3" : PatchName) ∉ (["p2"] : List PatchName) ∧
    (∀ p ∈ (["p2"] : List PatchName) ++ ["p3"], (fun _ => false) p = false) ∧
    (∃ t, gotoTransactionBody .Disallow (fun _ => false) "p3" pushStack = .ok (t, []) ∧
      t.applied = pushStack.applied ++ (["p2"] ++ ["p3"]) ∧ t.unapplied = []) :=
  ⟨by decide, rfl, by decide, by decide,
   goto_unapplied_target .Disallow (fun _ => false) pushStack ["p2"] [] "p3"
     (by decide) rfl (by decide) (by decide)⟩

/-- Claim C1: a goto whose push produces a merge conflict under the
Disallow policy aborts: execute reports the merge conflict error carrying
the count of patches already pushed, and the persisted stack metadata it
leaves behind is exactly the metadata from before the call. -/
theorem goto_conflict_disallow_preserves (conflicts : PatchName → Bool)
    (s : StackState) (front rest : List PatchName) (target : PatchName)
    (hna : target ∉ s.applied) (hu : s.unapplied = front ++ target :: rest)
    (htf : target ∉ front) (hconf : ∃ p ∈ front ++ [target], conflicts p = true) :
    ∃ k, executeGoto .Disallow conflicts target s = (s, some (.mergeConflict k)) := by
  have h0 : position (fun pn => pn == target) s.applied = none := by
    apply aux_position_none
    intro x hx
    have hxt : x ≠ target := fun h => hna (h ▸ hx)
    simpa using hxt
  have h1 : position (fun pn => pn == target) s.unapplied = some front.length := by
    rw [hu]
    apply aux_position_append
    · intro x hx
      have hxt : x ≠ target := fun h => htf (h ▸ hx)
      simpa using hxt
    · simp
  have htake : s.unapplied.take (front.length + 1) = front ++ [target] := by
    rw [hu]
    exact aux_take_append front target rest
  rcases aux_pushAll_conflict conflicts (front ++ [target]) hconf s 0 with ⟨k, hk⟩
  refine ⟨k, ?_⟩
  simp only [executeGoto, gotoTransactionBody, h0, h1, htake, hk, Except.map]

theorem goto_conflict_disallow_preserves_witness :
    ("p3" : PatchName) ∉ pushStack.applied ∧
    pushStack.unapplied = ["p2"] ++ "p3" :: [] ∧
    ("p3" : PatchName) ∉ (["p2"] : List PatchName) ∧
    (∃ p ∈ (["p2"] : List PatchName) ++ ["p3"], (fun pn => pn == "p3") p = true) ∧
    (∃ k, executeGoto .Disallow (fun pn => pn == "p3") "p3" pushStack =
      (pushStack, some (.mergeConflict k))) :=
  ⟨by decide, rfl, by decide, by decide,
   goto_conflict_disallow_preserves (fun pn => pn == "p3") pushStack ["p2"] [] "p3"
     (by decide) rfl (by decide) (by decide)⟩

/-- A stack whose second unapplied patch is about to be pushed. -/
def roundStack : StackState :=
  ⟨[], ["q0", "p0"], [], fun _ => "cccc0000", "bbbb0000"⟩

/-- Claim C7 as stated fails: pushing the unapplied patch p0, which is not
at the front of unapplied, and then popping it moves p0 to the front of
unapplied, so the unapplied order is not restored to its pre-push value. -/
theorem push_then_pop_reorders_unapplied :
    ("p0" : PatchName) ∈ roundStack.unapplied ∧
    (popPatches (fun q => q == "p0") (pushPatch "p0" roundStack)).1.unapplied ≠
      roundStack.unapplied := by
  constructor
  · decide
  · decide

/-- Claim C7 amended: pushing the patch at the front of unapplied and then
immediately popping it restores the applied order, the unapplied order and
the head commit to their pre-push values. -/
theorem push_then_pop_front_restores (s : StackState) (p : PatchName)
    (rest : List PatchName) (hp : p ∉ s.applied) (hu : s.unapplied = p :: rest) :
    (popPatches (fun q => q == p) (pushPatch p s)).1.applied = s.applied ∧
    (popPatches (fun q => q == p) (pushPatch p s)).1.unapplied = s.unapplied ∧
    headCommit (popPatches (fun q => q == p) (pushPatch p s)).1 = headCommit s := by
  have ha1 : (pushPatch p s).applied = s.applied ++ [p] := rfl
  have hu1 : (pushPatch p s).unapplied = rest := by
    show s.unapplied.erase p = rest
    rw [hu]
    exact List.erase_cons_head p rest
  have hc1 : ∀ q, q ≠ p → (pushPatch p s).commit q = s.commit q := by
    intro q hq
    show (if q = p then mkCommit (headCommit s) (s.commit p) else s.commit q) = s.commit q
    rw [if_neg hq]
  have hpos : position (fun q => q == p) (s.applied ++ [p]) = some s.applied.length := by
    apply aux_position_append _ s.applied p []
    · intro x hx
      have hxp : x ≠ p := fun h => hp (h ▸ hx)
      simpa using hxp
    · simp
  have hpop : (popPatches (fun q => q == p) (pushPatch p s)).1 =
      { pushPatch p s with applied := s.applied, unapplied := p :: rest } := by
    unfold popPatches
    simp only [ha1, hu1, hpos, List.take_left, List.drop_left, List.singleton_append]
  refine ⟨by rw [hpop], by rw [hpop, hu], ?_⟩
  rw [hpop]
  exact aux_headCommit_congr s _ rfl rfl (fun q hq => hc1 q (fun h => hp (h ▸ hq)))

theorem push_then_pop_front_restores_witness :
    ("q0" : PatchName) ∉ roundStack.applied ∧
    roundStack.unapplied = "q0" :: ["p0"] ∧
    ((popPatches (fun q => q == "q0") (pushPatch "q0" roundStack)).1.applied =
        roundStack.applied ∧
      (popPatches (fun q => q == "q0") (pushPatch "q0" roundStack)).1.unapplied =
        roundStack.unapplied ∧
      headCommit (popPatches (fun q => q == "q0") (pushPatch "q0" roundStack)).1 =
        headCommit roundStack) :=
  ⟨by decide, rfl, push_then_pop_front_restores roundStack "q0" ["p0"] (by decide) rfl⟩

/-- Claim C8 as stated fails: the flag assignment with refresh, index and
no-submodules set satisfies every declared clap constraint, yet it combines
index with the no-submodules submodule flag, so index does not forbid both
submodule flags. -/
theorem new_index_allows_no_submodules :
    validNewArgs ⟨false, true, true, false, false, true, false⟩ = true ∧
    (⟨false, true, true, false, false, true, false⟩ : NewArgs).index = true ∧
    (⟨false, true, true, false, false, true, false⟩ : NewArgs).noSubmodules = true := by
  decide

/-- Claim C8 amended: under the declared constraints, index forbids path
filters, the submodules flag and force (but not no-submodules), and the two
submodule inclusion flags are mutually exclusive with each other. -/
theorem new_flag_constraints (a : NewArgs) (h : validNewArgs a = true) :
    (a.index = true → a.pathspecs = false ∧ a.submodules = false ∧ a.force = false) ∧
    ¬(a.submodules = true ∧ a.noSubmodules = true) := by
  obtain ⟨b1, b2, b3, b4, b5, b6, b7⟩ := a
  revert h
  cases b1 <;> cases b2 <;> cases b3 <;> cases b4 <;> cases b5 <;> cases b6 <;> cases b7 <;>
    decide

theorem new_flag_constraints_witness :
    validNewArgs ⟨false, true, true, false, false, false, false⟩ = true ∧
    (((⟨false, true, true, false, false, false, false⟩ : NewArgs).index = true →
        (⟨false, true, true, false, false, false, false⟩ : NewArgs).pathspecs = false ∧
        (⟨false, true, true, false, false, false, false⟩ : NewArgs).submodules = false ∧
        (⟨false, true, true, false, false, false, false⟩ : NewArgs).force = false) ∧
      ¬((⟨false, true, true, false, false, false, false⟩ : NewArgs).submodules = true ∧
        (⟨false, true, true, false, false, false, false⟩ : NewArgs).noSubmodules = true)) :=
  ⟨by decide, new_flag_constraints ⟨false, true, true, false, false, false, false⟩ (by decide)⟩

/-- Claim C10: invoking new without refresh and without path arguments
creates a genuinely empty patch commit, whose tree id is the tree id of the
branch head and whose parent is the branch head commit, and records the
patch at the top of the applied sequence. -/
theorem new_empty_patch (branchHead : CommitInfo) (refreshTree : String)
    (name : PatchName) (cid : String) (s : StackState) :
    (newPatchCommit false false branchHead refreshTree).tree = branchHead.tree ∧
    (newPatchCommit false false branchHead refreshTree).parent = branchHead.cid ∧
    (newApplied name cid s).applied = s.applied ++ [name] :=
  ⟨rfl, rfl, rfl⟩

end StGitSpec
